import Mathlib

/-!
Verification of the lpipe handler-selection layer and utility helpers.

The repository's `lpipe/signature.py` module is exercised by
`tests/unit/test_signature.py` but its source is not part of the present
tree; the signature matcher is therefore modelled from the specification
(sections 3, 4.1, 7 of the spec).  The helpers `batch`, `get_nested`,
`set_nested` and `get_enum_value` are embedded directly from
`lpipe/utils.py`.
-/

namespace Lpipe

/-- Payload values.  Modelled from the spec: a payload maps field names to
values of the minimal universe string, number, boolean, null, nested
mapping (spec section 3, "Payload"). -/
inductive Value where
  | str : String → Value
  | num : Int → Value
  | bool : Bool → Value
  | null : Value
  | map : List (String × Value) → Value

mutual

/-- Decidable equality on values, by mutual recursion with the nested
association lists. -/
def Value.decEq : (a b : Value) → Decidable (a = b)
  | .str a, .str b =>
    match String.decEq a b with
    | isTrue h => isTrue (by rw [h])
    | isFalse h => isFalse (by intro hh; cases hh; exact h rfl)
  | .num a, .num b =>
    match Int.decEq a b with
    | isTrue h => isTrue (by rw [h])
    | isFalse h => isFalse (by intro hh; cases hh; exact h rfl)
  | .bool a, .bool b =>
    match Bool.decEq a b with
    | isTrue h => isTrue (by rw [h])
    | isFalse h => isFalse (by intro hh; cases hh; exact h rfl)
  | .null, .null => isTrue rfl
  | .map a, .map b =>
    match Value.decEqList a b with
    | isTrue h => isTrue (by rw [h])
    | isFalse h => isFalse (by intro hh; cases hh; exact h rfl)
  | .str _, .num _ => isFalse (by intro h; cases h)
  | .str _, .bool _ => isFalse (by intro h; cases h)
  | .str _, .null => isFalse (by intro h; cases h)
  | .str _, .map _ => isFalse (by intro h; cases h)
  | .num _, .str _ => isFalse (by intro h; cases h)
  | .num _, .bool _ => isFalse (by intro h; cases h)
  | .num _, .null => isFalse (by intro h; cases h)
  | .num _, .map _ => isFalse (by intro h; cases h)
  | .bool _, .str _ => isFalse (by intro h; cases h)
  | .bool _, .num _ => isFalse (by intro h; cases h)
  | .bool _, .null => isFalse (by intro h; cases h)
  | .bool _, .map _ => isFalse (by intro h; cases h)
  | .null, .str _ => isFalse (by intro h; cases h)
  | .null, .num _ => isFalse (by intro h; cases h)
  | .null, .bool _ => isFalse (by intro h; cases h)
  | .null, .map _ => isFalse (by intro h; cases h)
  | .map _, .str _ => isFalse (by intro h; cases h)
  | .map _, .num _ => isFalse (by intro h; cases h)
  | .map _, .bool _ => isFalse (by intro h; cases h)
  | .map _, .null => isFalse (by intro h; cases h)

/-- Decidable equality on the nested association lists of values. -/
def Value.decEqList :
    (a b : List (String × Value)) → Decidable (a = b)
  | [], [] => isTrue rfl
  | [], _ :: _ => isFalse (by intro h; cases h)
  | _ :: _, [] => isFalse (by intro h; cases h)
  | (k1, v1) :: r1, (k2, v2) :: r2 =>
    match String.decEq k1 k2 with
    | isTrue hk =>
      match Value.decEq v1 v2 with
      | isTrue hv =>
        match Value.decEqList r1 r2 with
        | isTrue hr => isTrue (by rw [hk, hv, hr])
        | isFalse hr =>
          isFalse (by intro h; injection h with h1 h2; exact hr h2)
      | isFalse hv =>
        isFalse (by
          intro h; injection h with h1 h2
          injection h1 with hk2 hv2; exact hv hv2)
    | isFalse hk =>
      isFalse (by
        intro h; injection h with h1 h2
        injection h1 with hk2 hv2; exact hk hk2)

end

instance : DecidableEq Value := Value.decEq

instance : DecidableEq (List (String × Value)) := Value.decEqList

deriving instance DecidableEq for Except

/-- Type tags.  Modelled from the spec: the closed set of recognized
primitive/tag kinds for a type constraint (spec section 9); "any" is
represented by the absence of a constraint (`Option TypeTag = none`). -/
inductive TypeTag where
  | string
  | number
  | boolean
  | mapping
  | null
deriving DecidableEq

/-- Runtime "is-instance-of" relation as a tagged-union discriminant
comparison (spec section 9). -/
def isInstanceOf : Value → TypeTag → Bool
  | .str _, .string => true
  | .num _, .number => true
  | .bool _, .boolean => true
  | .map _, .mapping => true
  | .null, .null => true
  | _, _ => false

/-- First-match lookup in an association list; payloads and result
mappings are modelled as association lists from field name to value. -/
def plookup (p : List (String × Value)) (k : String) : Option Value :=
  match p with
  | [] => none
  | (k2, v) :: rest => if k2 = k then some v else plookup rest k

/-- ParameterSpec.  Modelled from the spec: name, optional type
constraint, whether a default exists, and the default value
(spec section 3). -/
structure ParameterSpec where
  name : String
  type_constraint : Option TypeTag
  has_default : Bool
  default_value : Option Value
deriving DecidableEq

/-- CandidateSignature.  Modelled from the spec: an ordered sequence of
ParameterSpec plus the descriptive `accepts_extra` flag
(spec section 3). -/
structure CandidateSignature where
  params : List ParameterSpec
  accepts_extra : Bool
deriving DecidableEq

/-- Error raised when every candidate fails (spec section 7): a single
error kind covering both missing-required-parameter and
type-constraint-violation failures. -/
inductive SignatureError where
  | noMatchingSignature : SignatureError
deriving DecidableEq

abbrev Payload := List (String × Value)

abbrev ValidatedArguments := List (String × Value)

/-- Modelled from the spec: step 2 of the `validate` algorithm
(spec section 4.1) for a single candidate's parameter list.  For each
declared parameter in declaration order: if present in the payload, check
the declared type constraint (failure aborts the candidate) and insert the
payload value into the result; if absent, succeed without an entry when
the parameter has a default and fail otherwise. -/
def validateParams (l : List ParameterSpec) (p : Payload) :
    Option ValidatedArguments :=
  match l with
  | [] => some []
  | ps :: rest =>
    match plookup p ps.name with
    | some v =>
      match ps.type_constraint with
      | some t =>
        if isInstanceOf v t then
          (validateParams rest p).map (fun r => (ps.name, v) :: r)
        else
          none
      | none => (validateParams rest p).map (fun r => (ps.name, v) :: r)
    | none =>
      if ps.has_default then validateParams rest p else none

/-- Modelled from the spec: evaluation of one candidate (spec section
4.1, steps 1-4).  Extra payload fields are ignored and `accepts_extra`
has no effect on matching (spec section 4.1, step 3). -/
def validateCandidate (c : CandidateSignature) (p : Payload) :
    Option ValidatedArguments :=
  validateParams c.params p

/-- Modelled from the spec: `validate` evaluates candidates in
declaration order and returns the result mapping of the first candidate
that does not fail; if all candidates fail it fails with
NoMatchingSignature (spec sections 4.1 and 7). -/
def validate (candidates : List CandidateSignature) (p : Payload) :
    Except SignatureError ValidatedArguments :=
  match candidates with
  | [] => .error .noMatchingSignature
  | c :: rest =>
    match validateCandidate c p with
    | some r => .ok r
    | none => validate rest p

/-- Predicate used to state the claims: a parameter's declared type
constraint accepts the given value (vacuously true when the parameter is
untyped). -/
def typeOk (ps : ParameterSpec) (v : Value) : Bool :=
  match ps.type_constraint with
  | some t => isInstanceOf v t
  | none => true

/-- Predicate used to state the claims: the parameter is present in the
payload with a value accepted by its declared type constraint. -/
def presentOk (p : Payload) (ps : ParameterSpec) : Bool :=
  match plookup p ps.name with
  | some v => typeOk ps v
  | none => false

/-- Predicate used to state the claims: the parameter, considered on its
own against the payload, makes its candidate fail — it is present with a
value rejected by its type constraint, or absent without a default. -/
def paramFails (p : Payload) (ps : ParameterSpec) : Bool :=
  match plookup p ps.name with
  | some v => !typeOk ps v
  | none => !ps.has_default

end Lpipe

namespace Lpipe

set_option linter.unusedVariables false in
/-- Embedding of `lpipe.utils.batch`: yield the slices
`iterable[ndx : min(ndx + n, len(iterable))]` for `ndx = 0, n, 2n, ...`.
The loop over `range(0, iter_len, n)` is rendered as recursion on the
remaining suffix; `range` with step 0 raises in Python, so the `n = 0`
case (yielding nothing) is outside the modelled behaviour. -/
def batch (xs : List α) (n : Nat) : List (List α) :=
  if h : xs.isEmpty ∨ n = 0 then [] else
    xs.take n :: batch (xs.drop n) n
termination_by xs.length
decreasing_by
  simp only [List.isEmpty_iff, not_or] at h
  have hx : 0 < xs.length := List.length_pos.mpr h.1
  have hn : 0 < n := Nat.pos_of_ne_zero h.2
  simp only [List.length_drop]
  omega

/-- Python truthiness on the modelled value universe: empty mappings,
empty strings, zero, `False` and `None` are falsy. -/
def truthy : Value → Bool
  | .str s => s ≠ ""
  | .num n => n ≠ 0
  | .bool b => b
  | .null => false
  | .map m => ¬m.isEmpty

/-- Embedding of the inner `_get` of `lpipe.utils.get_nested`:
`head.get(k, {})` on a mapping; on a non-mapping value,
`getattr(head, k, {})` yields the `{}` default (payload field names are
not attributes of the primitive values modelled here). -/
def getStep (head : Value) (k : String) : Value :=
  match head with
  | .map m => (plookup m k).getD (.map [])
  | _ => .map []

/-- Embedding of `lpipe.utils.get_nested`: walk the key path, replacing
the head by `_get(head, k)` at each step, returning early as soon as the
head is falsy. -/
def get_nested (d : Value) (keys : List String) : Value :=
  match keys with
  | [] => d
  | k :: rest =>
    let head := getStep d k
    if truthy head then get_nested head rest else head

/-- Replacement of the first binding of a key in an association list, or
appending the binding when the key is absent: the functional rendering of
`d[k] = v` on a mapping. -/
def assocSet (m : List (String × Value)) (k : String) (v : Value) :
    List (String × Value) :=
  match m with
  | [] => [(k, v)]
  | (k2, w) :: rest =>
    if k2 = k then (k2, v) :: rest else (k2, w) :: assocSet rest k v

/-- Embedding of `lpipe.utils.set_nested`: descend with
`d = d.setdefault(key, {})` through all but the last key, then assign
`d[keys[-1]] = value`.  The in-place mutation is rendered functionally as
the updated value; `none` models the exceptions Python raises when the
key path is empty (`keys[-1]` IndexError) or a traversed node is not a
mapping (attribute/subscript error). -/
def set_nested (d : Value) (keys : List String) (v : Value) : Option Value :=
  match d, keys with
  | .map m, [k] => some (.map (assocSet m k v))
  | .map m, k :: k2 :: rest =>
    let child := (plookup m k).getD (.map [])
    (set_nested child (k2 :: rest) v).map fun c2 => .map (assocSet m k c2)
  | .map _, [] => none
  | .str _, _ => none
  | .num _, _ => none
  | .bool _, _ => none
  | .null, _ => none

/-- Character-list rendering of Python `s.split(sep)` for a single
non-empty separator character, as used by `str(k).split(".")` in
`lpipe.utils.get_enum_value`.  Splitting the empty string yields one
empty segment, exactly as in Python. -/
def split (sep : Char) : List Char → List (List Char)
  | [] => [[]]
  | c :: rest =>
    match split sep rest with
    | [] => [[]]
    | seg :: segs =>
      if c = sep then [] :: seg :: segs else (c :: seg) :: segs

/-- Error raised by `lpipe.utils.get_enum_value` when the key is not a
member of the enum (wrapping the underlying KeyError's message). -/
structure InvalidPathError where
  msg : List Char
deriving DecidableEq

/-- Member lookup in an enum, modelled as an association list from member
name to member. -/
def enumLookup (name : List Char) (e : List (List Char × α)) : Option α :=
  match e with
  | [] => none
  | (n, v) :: rest => if n = name then some v else enumLookup name rest

/-- Embedding of `lpipe.utils.get_enum_value`: evaluate
`e[str(k).split(".")[-1]]`, raising InvalidPathError on KeyError.  The
key is modelled by its string rendering `str(k)` as a character list. -/
def get_enum_value (e : List (List Char × α)) (k : List Char) :
    Except InvalidPathError α :=
  let name := (split '.' k).getLastD []
  match enumLookup name e with
  | some v => .ok v
  | none => .error ⟨name⟩

end Lpipe

namespace Lpipe

theorem plookup_append_mid (p1 p2 : Payload) (k n : String) (v : Value)
    (hk : k ≠ n) :
    plookup (p1 ++ (k, v) :: p2) n = plookup (p1 ++ p2) n := by
  induction p1 with
  | nil => simp [plookup, hk]
  | cons kv rest ih =>
    obtain ⟨k2, w⟩ := kv
    simp only [List.cons_append, plookup]
    by_cases h2 : k2 = n <;> simp [h2, ih]

theorem validateParams_keys (l : List ParameterSpec) (p : Payload)
    (r : ValidatedArguments) (h : validateParams l p = some r) :
    r.map Prod.fst
      = (l.filter fun ps => (plookup p ps.name).isSome).map
          fun ps => ps.name := by
  induction l generalizing r with
  | nil =>
    simp only [validateParams, Option.some.injEq] at h
    subst h
    simp
  | cons ps rest ih =>
    cases hp : plookup p ps.name with
    | some v =>
      have hr : ∃ r0, validateParams rest p = some r0
          ∧ (ps.name, v) :: r0 = r := by
        cases ht : ps.type_constraint with
        | some t =>
          simp only [validateParams, hp, ht] at h
          by_cases hi : isInstanceOf v t = true
          · rw [if_pos hi] at h
            exact Option.map_eq_some'.mp h
          · rw [if_neg hi] at h
            cases h
        | none =>
          simp only [validateParams, hp, ht] at h
          exact Option.map_eq_some'.mp h
      obtain ⟨r0, hr0, hrr⟩ := hr
      subst hrr
      simp [List.filter_cons, hp, ih r0 hr0]
    | none =>
      simp only [validateParams, hp] at h
      by_cases hd : ps.has_default = true
      · rw [if_pos hd] at h
        simp [List.filter_cons, hp, ih r h]
      · rw [if_neg hd] at h
        cases h

theorem validateParams_isSome (l : List ParameterSpec) (p : Payload)
    (hreq : ∀ ps ∈ l, ps.has_default = false → presentOk p ps = true)
    (hty : ∀ ps ∈ l, (plookup p ps.name).all (typeOk ps) = true) :
    (validateParams l p).isSome = true := by
  induction l with
  | nil => simp [validateParams]
  | cons ps rest ih =>
    have ihr := ih (fun q hq => hreq q (List.mem_cons_of_mem ps hq))
      (fun q hq => hty q (List.mem_cons_of_mem ps hq))
    cases hp : plookup p ps.name with
    | some v =>
      have hok : typeOk ps v = true := by
        have hh := hty ps (List.mem_cons_self ps rest)
        rw [hp] at hh
        simpa [Option.all] using hh
      cases ht : ps.type_constraint with
      | some t =>
        have hi : isInstanceOf v t = true := by
          simp only [typeOk, ht] at hok
          exact hok
        simp only [validateParams, hp, ht]
        rw [if_pos hi]
        simpa using ihr
      | none =>
        simp only [validateParams, hp, ht]
        simpa using ihr
    | none =>
      simp only [validateParams, hp]
      by_cases hd : ps.has_default = true
      · rw [if_pos hd]
        exact ihr
      · exfalso
        have hh := hreq ps (List.mem_cons_self ps rest)
          (Bool.eq_false_iff.mpr hd)
        simp only [presentOk, hp] at hh
        cases hh

theorem validateParams_fails (l : List ParameterSpec) (p : Payload)
    (ps : ParameterSpec) (hmem : ps ∈ l) (hf : paramFails p ps = true) :
    validateParams l p = none := by
  induction l with
  | nil => cases hmem
  | cons q rest ih =>
    rcases List.mem_cons.mp hmem with h | h
    · subst h
      cases hp : plookup p ps.name with
      | some v =>
        simp only [paramFails, hp, Bool.not_eq_true'] at hf
        cases ht : ps.type_constraint with
        | some t =>
          simp only [typeOk, ht] at hf
          simp only [validateParams, hp, ht]
          rw [if_neg (by simp [hf])]
        | none => simp [typeOk, ht] at hf
      | none =>
        simp only [paramFails, hp, Bool.not_eq_true'] at hf
        simp only [validateParams, hp]
        rw [if_neg (by simp [hf])]
    · have ihr := ih h
      cases hp : plookup p q.name with
      | some v =>
        cases ht : q.type_constraint with
        | some t =>
          simp only [validateParams, hp, ht]
          by_cases hi : isInstanceOf v t = true
          · rw [if_pos hi, ihr]; rfl
          · rw [if_neg hi]
        | none =>
          simp only [validateParams, hp, ht, ihr]
          rfl
      | none =>
        simp only [validateParams, hp]
        by_cases hd : q.has_default = true
        · rw [if_pos hd, ihr]
        · rw [if_neg hd]

theorem validateParams_drop_absent (l1 l2 : List ParameterSpec)
    (ps : ParameterSpec) (p : Payload)
    (habs : plookup p ps.name = none) (hdef : ps.has_default = true) :
    validateParams (l1 ++ ps :: l2) p = validateParams (l1 ++ l2) p := by
  induction l1 with
  | nil => simp [validateParams, habs, hdef]
  | cons q rest ih =>
    simp only [List.cons_append, validateParams, List.append_eq]
    rw [ih]

theorem validateParams_congr (l : List ParameterSpec) (p1 p2 : Payload)
    (h : ∀ ps ∈ l, plookup p1 ps.name = plookup p2 ps.name) :
    validateParams l p1 = validateParams l p2 := by
  induction l with
  | nil => rfl
  | cons ps rest ih =>
    have ihr := ih fun q hq => h q (List.mem_cons_of_mem ps hq)
    have hh := h ps (List.mem_cons_self ps rest)
    simp only [validateParams, hh, ihr]

theorem validate_first (cs1 cs2 : List CandidateSignature)
    (c : CandidateSignature) (p : Payload) (r : ValidatedArguments)
    (h1 : ∀ c2 ∈ cs1, validateCandidate c2 p = none)
    (h2 : validateCandidate c p = some r) :
    validate (cs1 ++ c :: cs2) p = .ok r := by
  induction cs1 with
  | nil => simp only [List.nil_append, validate, h2]
  | cons c1 rest ih =>
    have hc1 := h1 c1 (List.mem_cons_self c1 rest)
    simp only [List.cons_append, validate, hc1]
    exact ih fun c2 hc2 => h1 c2 (List.mem_cons_of_mem c1 hc2)

theorem validate_all_fail (cs : List CandidateSignature) (p : Payload)
    (h : ∀ c ∈ cs, validateCandidate c p = none) :
    validate cs p = .error .noMatchingSignature := by
  induction cs with
  | nil => rfl
  | cons c rest ih =>
    have hc := h c (List.mem_cons_self c rest)
    simp only [validate, hc]
    exact ih fun c2 hc2 => h c2 (List.mem_cons_of_mem c hc2)

/-- C1: counterexample to the claim as stated.  For the candidate
f(a, b, c: str = None) and the payload {a: 1, b: 2, c: 3}, every required
(no-default) parameter (a and b) is present with a value satisfying its
declared type constraint, yet `validate` fails with NoMatchingSignature
instead of succeeding: the optional parameter c is present with a value
violating its type constraint (the scenario of
test_hint_with_none_default_raises). -/
theorem validate_required_only_hypothesis_insufficient :
    (∀ ps ∈ ([⟨"a", none, false, none⟩, ⟨"b", none, false, none⟩,
        ⟨"c", some .string, true, some .null⟩] : List ParameterSpec),
      ps.has_default = false →
        presentOk [("a", .num 1), ("b", .num 2), ("c", .num 3)] ps = true)
    ∧ validate
        [⟨[⟨"a", none, false, none⟩, ⟨"b", none, false, none⟩,
          ⟨"c", some .string, true, some .null⟩], true⟩]
        [("a", .num 1), ("b", .num 2), ("c", .num 3)]
        = .error .noMatchingSignature := by
  decide

/-- C1 (amended): for every candidate c and payload p such that every
required (no-default) parameter of c is present in p with a value
satisfying its declared type constraint, and moreover every declared
parameter of c that is present in p satisfies its declared type
constraint, `validate [c] p` succeeds and the returned mapping's keys are
exactly the parameters declared by c that are present in p (in
declaration order); an optional parameter absent from p never appears in
the result.  In particular a candidate with zero required parameters
matched against an empty payload yields an empty result mapping. -/
theorem validate_single_candidate_success_keys
    (c : CandidateSignature) (p : Payload)
    (hreq : ∀ ps ∈ c.params, ps.has_default = false → presentOk p ps = true)
    (hty : ∀ ps ∈ c.params, (plookup p ps.name).all (typeOk ps) = true) :
    ∃ r, validate [c] p = .ok r
      ∧ r.map Prod.fst
          = (c.params.filter fun ps => (plookup p ps.name).isSome).map
              fun ps => ps.name := by
  have hs := validateParams_isSome c.params p hreq hty
  obtain ⟨r, hr⟩ := Option.isSome_iff_exists.mp hs
  refine ⟨r, ?_, validateParams_keys c.params p r hr⟩
  simp only [validate, validateCandidate, hr]

/-- C1 witness: the amended theorem applied to the candidate
f(c: str = "asdf") (zero required parameters) and the empty payload. -/
theorem validate_single_candidate_success_keys_witness :
    ∃ r, validate
        [⟨[⟨"c", some TypeTag.string, true, some (Value.str "asdf")⟩], true⟩]
        ([] : Payload) = .ok r
      ∧ r.map Prod.fst
          = (([⟨"c", some TypeTag.string, true, some (Value.str "asdf")⟩]
              : List ParameterSpec).filter
                fun ps => (plookup [] ps.name).isSome).map
              fun ps => ps.name :=
  validate_single_candidate_success_keys
    ⟨[⟨"c", some TypeTag.string, true, some (Value.str "asdf")⟩], true⟩ []
    (by decide) (by decide)

/-- C2: for every non-empty candidate list and every payload in which,
for each candidate, at least one required (no-default) parameter is
absent, `validate` fails with the NoMatchingSignature error (and in
particular never returns an `ok` result). -/
theorem validate_all_required_missing_error
    (cs : List CandidateSignature) (p : Payload) (_hne : cs ≠ [])
    (h : ∀ c ∈ cs, ∃ ps ∈ c.params,
        ps.has_default = false ∧ plookup p ps.name = none) :
    validate cs p = .error .noMatchingSignature := by
  refine validate_all_fail cs p fun c hc => ?_
  obtain ⟨ps, hmem, hdef, habs⟩ := h c hc
  exact validateParams_fails c.params p ps hmem
    (by simp [paramFails, habs, hdef])

/-- C2 witness: the candidate f(a, b, c) with the payload {b: 2, c: 3}
missing the required parameter a (the scenario of
test_no_hints_raises). -/
theorem validate_all_required_missing_error_witness :
    validate [⟨[⟨"a", none, false, none⟩, ⟨"b", none, false, none⟩,
        ⟨"c", none, false, none⟩], true⟩]
      [("b", .num 2), ("c", .num 3)] = .error .noMatchingSignature :=
  validate_all_required_missing_error _ _ (by decide) (by decide)

/-- C3: for a candidate declaring an optional parameter nm with type
constraint t and a None default (the other declared parameters not being
named nm): when nm is absent from the payload the candidate behaves
exactly as if the parameter were not declared — no failure arises from it
and nm never appears among the result keys; when nm is present with a
value violating t, the candidate fails despite the None default.  A type
constraint is thus checked only when the field is present. -/
theorem validate_optional_none_default_scope
    (l1 l2 : List ParameterSpec) (nm : String) (t : TypeTag) (ex : Bool)
    (p : Payload) (hnm : ∀ ps ∈ l1 ++ l2, ps.name ≠ nm) :
    (plookup p nm = none →
      validateCandidate ⟨l1 ++ ⟨nm, some t, true, some .null⟩ :: l2, ex⟩ p
        = validateCandidate ⟨l1 ++ l2, ex⟩ p)
    ∧ (plookup p nm = none → ∀ r,
        validateCandidate ⟨l1 ++ ⟨nm, some t, true, some .null⟩ :: l2, ex⟩ p
          = some r → nm ∉ r.map Prod.fst)
    ∧ (∀ v, plookup p nm = some v → isInstanceOf v t = false →
        validateCandidate ⟨l1 ++ ⟨nm, some t, true, some .null⟩ :: l2, ex⟩ p
          = none) := by
  refine ⟨?_, ?_, ?_⟩
  · intro habs
    exact validateParams_drop_absent l1 l2 _ p habs rfl
  · intro habs r hr
    rw [show validateCandidate ⟨l1 ++ ⟨nm, some t, true, some .null⟩ :: l2, ex⟩ p
        = validateParams (l1 ++ ⟨nm, some t, true, some .null⟩ :: l2) p from rfl,
      validateParams_drop_absent l1 l2 _ p habs rfl] at hr
    have hk := validateParams_keys (l1 ++ l2) p r hr
    rw [hk]
    intro hmem
    obtain ⟨ps, hps, hname⟩ := List.mem_map.mp hmem
    exact hnm ps (List.mem_of_mem_filter hps) hname
  · intro v hv hvt
    refine validateParams_fails _ p ⟨nm, some t, true, some .null⟩ ?_ ?_
    · exact List.mem_append.mpr (Or.inr (List.mem_cons_self _ _))
    · simp [paramFails, hv, typeOk, hvt]

/-- C3 witness: the candidate f(a, b, c: str = None) against the payload
{a: 1, b: 2} (absent optional c: same outcome as f(a, b)) and against
{a: 1, b: 2, c: 3} (present violating c: the candidate fails) — the
scenarios of test_hint_with_none_default and
test_hint_with_none_default_raises. -/
theorem validate_optional_none_default_scope_witness :
    validateCandidate
        ⟨[⟨"a", none, false, none⟩, ⟨"b", none, false, none⟩]
          ++ ⟨"c", some .string, true, some .null⟩ :: [], true⟩
        [("a", .num 1), ("b", .num 2)]
      = validateCandidate
        ⟨[⟨"a", none, false, none⟩, ⟨"b", none, false, none⟩] ++ [], true⟩
        [("a", .num 1), ("b", .num 2)]
    ∧ validateCandidate
        ⟨[⟨"a", none, false, none⟩, ⟨"b", none, false, none⟩]
          ++ ⟨"c", some .string, true, some .null⟩ :: [], true⟩
        [("a", .num 1), ("b", .num 2), ("c", .num 3)] = none := by
  have h1 := validate_optional_none_default_scope
    [⟨"a", none, false, none⟩, ⟨"b", none, false, none⟩] [] "c" .string true
    [("a", .num 1), ("b", .num 2)] (by decide)
  have h2 := validate_optional_none_default_scope
    [⟨"a", none, false, none⟩, ⟨"b", none, false, none⟩] [] "c" .string true
    [("a", .num 1), ("b", .num 2), ("c", .num 3)] (by decide)
  exact ⟨h1.1 (by decide), h2.2.2 (.num 3) (by decide) (by decide)⟩

/-- C4: a parameter carrying a type constraint not satisfied by null,
explicitly supplied as null in the payload, fails the type check like
any other violating value: the candidate fails and a single-candidate
validation errors. -/
theorem validate_explicit_null_checked
    (c : CandidateSignature) (ps : ParameterSpec) (t : TypeTag)
    (p : Payload) (hmem : ps ∈ c.params) (ht : ps.type_constraint = some t)
    (hnull : isInstanceOf .null t = false)
    (hp : plookup p ps.name = some .null) :
    validateCandidate c p = none
    ∧ validate [c] p = .error .noMatchingSignature := by
  have hf : validateCandidate c p = none :=
    validateParams_fails c.params p ps hmem
      (by simp [paramFails, hp, typeOk, ht, hnull])
  exact ⟨hf, by simp only [validate, hf]⟩

/-- C4 witness: the candidate f(a: str) with the payload {a: None}. -/
theorem validate_explicit_null_checked_witness :
    validateCandidate ⟨[⟨"a", some TypeTag.string, false, none⟩], true⟩
        [("a", Value.null)] = none
    ∧ validate [⟨[⟨"a", some TypeTag.string, false, none⟩], true⟩]
        [("a", Value.null)] = .error .noMatchingSignature :=
  validate_explicit_null_checked _ ⟨"a", some .string, false, none⟩
    .string _ (by decide) (by decide) (by decide) (by decide)

/-- C5: `validate` evaluates candidates in declaration order and returns
the result of the first candidate that does not fail; the outcome is
therefore independent of every candidate placed after the first match. -/
theorem validate_first_match_wins
    (cs1 cs2 cs2' : List CandidateSignature) (c : CandidateSignature)
    (p : Payload) (r : ValidatedArguments)
    (h1 : ∀ c2 ∈ cs1, validateCandidate c2 p = none)
    (h2 : validateCandidate c p = some r) :
    validate (cs1 ++ c :: cs2) p = .ok r
    ∧ validate (cs1 ++ c :: cs2) p = validate (cs1 ++ c :: cs2') p := by
  have ha := validate_first cs1 cs2 c p r h1 h2
  have hb := validate_first cs1 cs2' c p r h1 h2
  exact ⟨ha, by rw [ha, hb]⟩

/-- C5 witness: the failing candidate f(a: str, b, c) followed by the
matching candidate f(a, b, c), with the payload {a: 1, b: 2, c: 3}; the
candidates listed after the match (one copy of f(a, b, c) versus none)
do not affect the outcome. -/
theorem validate_first_match_wins_witness :
    validate
        ([⟨[⟨"a", some .string, false, none⟩, ⟨"b", none, false, none⟩,
            ⟨"c", none, false, none⟩], true⟩]
          ++ ⟨[⟨"a", none, false, none⟩, ⟨"b", none, false, none⟩,
            ⟨"c", none, false, none⟩], true⟩
            :: [⟨[⟨"a", none, false, none⟩, ⟨"b", none, false, none⟩,
              ⟨"c", none, false, none⟩], true⟩])
        [("a", .num 1), ("b", .num 2), ("c", .num 3)]
      = .ok [("a", .num 1), ("b", .num 2), ("c", .num 3)]
    ∧ validate
        ([⟨[⟨"a", some .string, false, none⟩, ⟨"b", none, false, none⟩,
            ⟨"c", none, false, none⟩], true⟩]
          ++ ⟨[⟨"a", none, false, none⟩, ⟨"b", none, false, none⟩,
            ⟨"c", none, false, none⟩], true⟩
            :: [⟨[⟨"a", none, false, none⟩, ⟨"b", none, false, none⟩,
              ⟨"c", none, false, none⟩], true⟩])
        [("a", .num 1), ("b", .num 2), ("c", .num 3)]
      = validate
        ([⟨[⟨"a", some .string, false, none⟩, ⟨"b", none, false, none⟩,
            ⟨"c", none, false, none⟩], true⟩]
          ++ ⟨[⟨"a", none, false, none⟩, ⟨"b", none, false, none⟩,
            ⟨"c", none, false, none⟩], true⟩ :: [])
        [("a", .num 1), ("b", .num 2), ("c", .num 3)] :=
  validate_first_match_wins
    [⟨[⟨"a", some .string, false, none⟩, ⟨"b", none, false, none⟩,
      ⟨"c", none, false, none⟩], true⟩]
    [⟨[⟨"a", none, false, none⟩, ⟨"b", none, false, none⟩,
      ⟨"c", none, false, none⟩], true⟩] []
    ⟨[⟨"a", none, false, none⟩, ⟨"b", none, false, none⟩,
      ⟨"c", none, false, none⟩], true⟩
    [("a", .num 1), ("b", .num 2), ("c", .num 3)]
    [("a", .num 1), ("b", .num 2), ("c", .num 3)]
    (by decide) (by decide)

/-- C6: payload fields whose names are not declared by the candidate
never cause failure and never appear in the result: inserting an
undeclared field anywhere in the payload leaves the outcome unchanged,
identically for both values of the accepts_extra flag, and every key of
a successful result is the name of a declared parameter. -/
theorem validate_extra_fields_ignored
    (params : List ParameterSpec) (e1 e2 : Bool) (p1 p2 : Payload)
    (k : String) (v : Value) (hk : ∀ ps ∈ params, ps.name ≠ k) :
    validateCandidate ⟨params, e1⟩ (p1 ++ (k, v) :: p2)
      = validateCandidate ⟨params, e2⟩ (p1 ++ p2)
    ∧ (∀ r, validateCandidate ⟨params, e1⟩ (p1 ++ (k, v) :: p2) = some r →
        ∀ key ∈ r.map Prod.fst, ∃ ps ∈ params, ps.name = key) := by
  have hcongr : validateParams params (p1 ++ (k, v) :: p2)
      = validateParams params (p1 ++ p2) :=
    validateParams_congr params _ _ fun ps hps =>
      plookup_append_mid p1 p2 k ps.name v (hk ps hps).symm
  refine ⟨hcongr, ?_⟩
  intro r hr key hkey
  have hk2 := validateParams_keys params _ r hr
  rw [hk2] at hkey
  obtain ⟨ps, hps, hname⟩ := List.mem_map.mp hkey
  exact ⟨ps, List.mem_of_mem_filter hps, hname⟩

/-- C6 witness: the candidate f(a) with the extra field x inserted in
front of the payload {a: 1}, with accepts_extra true on one side and
false on the other; the sole result key a is the declared parameter. -/
theorem validate_extra_fields_ignored_witness :
    validateCandidate ⟨[⟨"a", none, false, none⟩], true⟩
        ([] ++ ("x", Value.num 9) :: [("a", Value.num 1)])
      = validateCandidate ⟨[⟨"a", none, false, none⟩], false⟩
        ([] ++ [("a", Value.num 1)])
    ∧ ∃ ps ∈ ([⟨"a", none, false, none⟩] : List ParameterSpec),
        ps.name = "a" := by
  have h := validate_extra_fields_ignored [⟨"a", none, false, none⟩]
    true false [] [("a", Value.num 1)] "x" (Value.num 9) (by decide)
  exact ⟨h.1, h.2 [("a", Value.num 1)] (by decide) "a" (by decide)⟩

/-- C7: `validate` is deterministic — it is a pure function of its
immutable inputs, so two calls with equal candidate lists and equal
payloads yield the same outcome (the same result mapping on success and
the same error on failure). -/
theorem validate_deterministic (cs1 cs2 : List CandidateSignature)
    (p1 p2 : Payload) (hc : cs1 = cs2) (hp : p1 = p2) :
    validate cs1 p1 = validate cs2 p2 := by
  rw [hc, hp]

theorem batch_eq (xs : List α) (n : Nat) :
    batch xs n = if xs.isEmpty ∨ n = 0 then []
      else xs.take n :: batch (xs.drop n) n := by
  rw [batch]
  exact dite_eq_ite

theorem batch_spec_aux (n : Nat) (hn : 1 ≤ n) (m : Nat) :
    ∀ xs : List α, xs.length ≤ m →
      (batch xs n).flatten = xs
      ∧ (∀ c ∈ (batch xs n).dropLast, c.length = n)
      ∧ (∀ c ∈ batch xs n, 1 ≤ c.length ∧ c.length ≤ n) := by
  induction m with
  | zero =>
    intro xs hlen
    have hx : xs = [] := List.length_eq_zero.mp (Nat.le_zero.mp hlen)
    subst hx
    rw [batch_eq]
    simp
  | succ m ih =>
    intro xs hlen
    by_cases hx : xs = []
    · subst hx
      rw [batch_eq]
      simp
    · have hcond : ¬(xs.isEmpty ∨ n = 0) := by
        simp only [List.isEmpty_iff, not_or]
        exact ⟨hx, by omega⟩
      rw [batch_eq, if_neg hcond]
      have hpos : 0 < xs.length := List.length_pos.mpr hx
      have hdrop : (xs.drop n).length ≤ m := by
        rw [List.length_drop]
        omega
      obtain ⟨ihj, ihd, ihm⟩ := ih (xs.drop n) hdrop
      refine ⟨?_, ?_, ?_⟩
      · rw [List.flatten_cons, ihj, List.take_append_drop]
      · by_cases hb : batch (xs.drop n) n = []
        · rw [hb]
          simp
        · rw [List.dropLast_cons_of_ne_nil hb]
          intro c hc
          rcases List.mem_cons.mp hc with h | h
          · subst h
            have hdne : xs.drop n ≠ [] := by
              intro hd
              rw [hd, batch_eq] at hb
              simp at hb
            have hlt : n < xs.length := List.length_lt_of_drop_ne_nil hdne
            rw [List.length_take]
            omega
          · exact ihd c h
      · intro c hc
        rcases List.mem_cons.mp hc with h | h
        · subst h
          rw [List.length_take]
          omega
        · exact ihm c h

/-- C8: for every list xs and batch size n greater or equal 1, the chunks
yielded by batch xs n concatenate back to exactly xs in order, every
chunk except possibly the last has length exactly n, and every chunk (in
particular the last one of a non-empty xs) has length between 1 and n. -/
theorem batch_chunks_spec (xs : List α) (n : Nat) (hn : 1 ≤ n) :
    (batch xs n).flatten = xs
    ∧ (∀ c ∈ (batch xs n).dropLast, c.length = n)
    ∧ (∀ c ∈ batch xs n, 1 ≤ c.length ∧ c.length ≤ n) :=
  batch_spec_aux n hn xs.length xs le_rfl

/-- C8 witness: batching [1, 2, 3, 4, 5] with n = 2 yields chunks that
concatenate back to the list, full chunks of length 2 before the last,
and a last chunk of length between 1 and 2. -/
theorem batch_chunks_spec_witness :
    (batch ([1, 2, 3, 4, 5] : List Nat) 2).flatten = [1, 2, 3, 4, 5]
    ∧ (∀ c ∈ (batch ([1, 2, 3, 4, 5] : List Nat) 2).dropLast, c.length = 2)
    ∧ (∀ c ∈ batch ([1, 2, 3, 4, 5] : List Nat) 2,
        1 ≤ c.length ∧ c.length ≤ 2) :=
  batch_chunks_spec [1, 2, 3, 4, 5] 2 (by decide)

theorem plookup_assocSet_self (m : List (String × Value)) (k : String)
    (v : Value) : plookup (assocSet m k v) k = some v := by
  induction m with
  | nil => simp [assocSet, plookup]
  | cons kv rest ih =>
    obtain ⟨k2, w⟩ := kv
    by_cases h : k2 = k
    · subst h
      simp [assocSet, plookup]
    · simp [assocSet, plookup, h, ih]

theorem assocSet_ne_nil (m : List (String × Value)) (k : String)
    (v : Value) : assocSet m k v ≠ [] := by
  cases m with
  | nil => simp [assocSet]
  | cons kv rest =>
    obtain ⟨k2, w⟩ := kv
    simp only [assocSet]
    split <;> simp

theorem set_nested_shape (d : Value) (ks : List String) (v d2 : Value)
    (hset : set_nested d ks v = some d2) :
    ∃ m2, d2 = .map m2 ∧ m2 ≠ [] := by
  cases d with
  | map m =>
    cases ks with
    | nil => simp [set_nested] at hset
    | cons k rest =>
      cases rest with
      | nil =>
        simp only [set_nested, Option.some.injEq] at hset
        exact ⟨assocSet m k v, hset.symm, assocSet_ne_nil m k v⟩
      | cons k2 rest2 =>
        simp only [set_nested] at hset
        obtain ⟨c2, _, hd2⟩ := Option.map_eq_some'.mp hset
        exact ⟨assocSet m k c2, hd2.symm, assocSet_ne_nil m k c2⟩
  | str s => simp [set_nested] at hset
  | num n => simp [set_nested] at hset
  | bool b => simp [set_nested] at hset
  | null => simp [set_nested] at hset

/-- C9: round trip of nested access.  For every value d, non-empty key
path ks and value v, whenever set_nested d ks v succeeds (it succeeds
exactly when d is a mapping and every traversed intermediate node is
either absent or itself a mapping, matching the exceptions the Python
code would raise otherwise), get_nested on the updated value returns v. -/
theorem get_nested_after_set_nested (d : Value) (ks : List String)
    (v d2 : Value) (hne : ks ≠ []) (hset : set_nested d ks v = some d2) :
    get_nested d2 ks = v := by
  induction ks generalizing d d2 with
  | nil => exact absurd rfl hne
  | cons k rest ih =>
    cases rest with
    | nil =>
      cases d with
      | map m =>
        simp only [set_nested, Option.some.injEq] at hset
        subst hset
        simp [get_nested, getStep, plookup_assocSet_self]
      | str s => simp [set_nested] at hset
      | num n => simp [set_nested] at hset
      | bool b => simp [set_nested] at hset
      | null => simp [set_nested] at hset
    | cons k2 rest2 =>
      cases d with
      | map m =>
        simp only [set_nested] at hset
        obtain ⟨c2, hc2, hd2⟩ := Option.map_eq_some'.mp hset
        subst hd2
        obtain ⟨m2, hm2, hm2ne⟩ := set_nested_shape _ _ _ _ hc2
        simp only [get_nested, getStep, plookup_assocSet_self,
          Option.getD_some]
        have ht : truthy c2 = true := by
          subst hm2
          simpa [truthy, List.isEmpty_iff] using hm2ne
        rw [if_pos ht]
        exact ih _ c2 (by simp) hc2
      | str s => simp [set_nested] at hset
      | num n => simp [set_nested] at hset
      | bool b => simp [set_nested] at hset
      | null => simp [set_nested] at hset

/-- C9 witness: setting ["x", "y"] to 7 in the empty mapping produces
{x: {y: 7}}, from which get_nested reads 7 back. -/
theorem get_nested_after_set_nested_witness :
    set_nested (Value.map []) ["x", "y"] (Value.num 7)
      = some (Value.map [("x", Value.map [("y", Value.num 7)])])
    ∧ get_nested (Value.map [("x", Value.map [("y", Value.num 7)])])
        ["x", "y"] = Value.num 7 :=
  ⟨by decide,
    get_nested_after_set_nested (Value.map []) ["x", "y"] (Value.num 7)
      (Value.map [("x", Value.map [("y", Value.num 7)])])
      (by decide) (by decide)⟩

theorem split_ne_nil (sep : Char) (s : List Char) : split sep s ≠ [] := by
  cases s with
  | nil => simp [split]
  | cons c rest =>
    cases h : split sep rest with
    | nil => simp [split, h]
    | cons seg segs =>
      simp only [split, h]
      split <;> simp

theorem split_append (sep : Char) (xs ys : List Char) :
    split sep (xs ++ sep :: ys) = split sep xs ++ split sep ys := by
  induction xs with
  | nil =>
    cases h : split sep ys with
    | nil => simp [split, h]
    | cons seg segs => simp [split, h]
  | cons c rest ih =>
    cases h : split sep rest with
    | nil => exact absurd h (split_ne_nil sep rest)
    | cons seg segs =>
      simp only [List.cons_append, split, List.append_eq]
      rw [ih, h]
      simp only [List.cons_append]
      by_cases hc : c = sep <;> simp [hc]

theorem getLastD_append (a b : List (List Char)) (d : List Char)
    (hb : b ≠ []) : (a ++ b).getLastD d = b.getLastD d := by
  rw [List.getLastD_eq_getLast?, List.getLastD_eq_getLast?,
    List.getLast?_append]
  cases hx : b.getLast? with
  | none => exact absurd (List.getLast?_eq_none_iff.mp hx) hb
  | some x => rfl

/-- C10: get_enum_value looks up only the final dot-separated segment of
the key's string rendering — prefixing any text and a dot leaves the
outcome unchanged, so "MyEnum.FOO" and "FOO" resolve identically — and
it returns the member of e bearing that name when one exists, raising
InvalidPathError exactly when no member of e has that name. -/
theorem get_enum_value_spec (e : List (List Char × α)) (k pre : List Char) :
    get_enum_value e (pre ++ '.' :: k) = get_enum_value e k
    ∧ (∀ v : α, get_enum_value e k = .ok v
        ↔ enumLookup ((split '.' k).getLastD []) e = some v)
    ∧ ((∃ err, get_enum_value e k = .error err)
        ↔ enumLookup ((split '.' k).getLastD []) e = none) := by
  refine ⟨?_, ?_, ?_⟩
  · simp only [get_enum_value]
    rw [split_append, getLastD_append _ _ _ (split_ne_nil '.' k)]
  · intro v
    simp only [get_enum_value]
    cases h : enumLookup ((split '.' k).getLastD []) e <;> simp [h]
  · simp only [get_enum_value]
    cases h : enumLookup ((split '.' k).getLastD []) e <;> simp [h]

/-- C7 witness: two calls on the candidate f(a, b, c) and the payload
{a: 1, b: 2, c: 3} agree. -/
theorem validate_deterministic_witness :
    validate [⟨[⟨"a", none, false, none⟩, ⟨"b", none, false, none⟩,
        ⟨"c", none, false, none⟩], true⟩]
      [("a", .num 1), ("b", .num 2), ("c", .num 3)]
    = validate [⟨[⟨"a", none, false, none⟩, ⟨"b", none, false, none⟩,
        ⟨"c", none, false, none⟩], true⟩]
      [("a", .num 1), ("b", .num 2), ("c", .num 3)] :=
  validate_deterministic _ _ _ _ (by decide) (by decide)

end Lpipe
